import Mathlib

/-!
# Verification of the `heaps` library (Binary heap, Fibonacci heap, Dijkstra)

Shallow embedding of `src/include/heap/Binary.hpp`,
`src/include/heap/Fibonacci.hpp` and `src/include/graph/dijkstra.hpp`.

Modelling conventions:
* C++ `shared_ptr<node>` identity is modelled by `Nat` node ids; the heap
  carries an association list from id to node record (the "store").
* A C++ exception (`throw std::invalid_argument`) is modelled by an explicit
  `thrown` result carrying the two offending keys and the heap state at the
  moment of the throw.
* Undefined behaviour (dereferencing a null or dangling pointer, indexing a
  `std::vector` out of range, popping an empty heap) is modelled by `none` /
  a `crash` result.
* Loops whose traversal is not structural are written with an explicit fuel
  argument that is always large enough for the loop's own bound (each
  iteration consumes an element of a finite structure), so the fuel never
  runs out on the states that the operations are actually applied to.
* `std::less<int>` is `intLt`, `std::greater<int>` is `intGt`; a heap's
  `Comparator` template argument is passed to each operation as an explicit
  comparison function, exactly as the C++ object captures it.
-/

set_option autoImplicit false

namespace Heaps

/-- C++ `std::less<int>` -/
def intLt (a b : Int) : Bool := decide (a < b)

/-- C++ `std::greater<int>` -/
def intGt (a b : Int) : Bool := decide (b < a)

/-- Raw `operator>` on `int`, used by `Binary::decrease_key`'s validation. -/
def intGtRaw (a b : Int) : Bool := decide (b < a)

/-- C++ `operator<<` with `std::setw(2)` and `std::setfill('0')` on an `int` key:
the textual form, left-padded with `0` to width two. -/
def pad2 (k : Int) : String :=
  let s := toString k
  if s.length < 2 then "0" ++ s else s

/-! ## Binary heap (`src/include/heap/Binary.hpp`)

`Binary<K, Comparator>` keeps a `std::vector<node_ptr>`; `node` holds only the
key, and `operator<` on `node_ptr` is `Comparator()(rhs->key, lhs->key)` —
reversed, so that the `std` max-heap algorithms maintain a Comparator-min-heap.
Nodes are modelled as (id, key) records; the vector as a list. -/

structure BNode (α : Type) where
  id : Nat
  key : α
deriving DecidableEq, Repr

structure BinHeap (α : Type) where
  heap : List (BNode α)
  nextId : Nat
deriving DecidableEq, Repr

/-- C++ `friend bool operator<(const node_ptr& lhs, const node_ptr& rhs)`:
`Comparator()(rhs->key, lhs->key)`. -/
def nodeLtB {α : Type} (lt : α → α → Bool) (lhs rhs : BNode α) : Bool :=
  lt rhs.key lhs.key

/-- Exchange the elements at positions `i` and `j` (no-op when out of range,
which never happens at the call sites). -/
def swapL {β : Type} (a : List β) (i j : Nat) : List β :=
  match a.get? i, a.get? j with
  | some x, some y => (a.set i y).set j x
  | _, _ => a

/-- C++ `std::push_heap`: sift the element at `hole` up while its parent compares
less than it. Fuel bounds the ascent (the hole index strictly decreases). -/
def siftUpB {α : Type} (lt : α → α → Bool) :
    Nat → List (BNode α) → Nat → List (BNode α)
  | 0, a, _ => a
  | fuel + 1, a, hole =>
    if hole = 0 then a
    else
      match a.get? ((hole - 1) / 2), a.get? hole with
      | some pv, some hv =>
        if nodeLtB lt pv hv then
          siftUpB lt fuel (swapL a ((hole - 1) / 2) hole) ((hole - 1) / 2)
        else a
      | _, _ => a

/-- The index of the largest (in the reversed node order) of position `i`
(holding `ai`) and its two children — the swap target of one heapify
step. -/
def largestIdxB {α : Type} (lt : α → α → Bool) (a : List (BNode α))
    (i : Nat) (ai : BNode α) : Nat :=
  match a.get? (2 * i + 1) with
  | some al =>
    if nodeLtB lt ai al then
      match a.get? (2 * i + 2) with
      | some ar => if nodeLtB lt al ar then 2 * i + 2 else 2 * i + 1
      | none => 2 * i + 1
    else
      match a.get? (2 * i + 2) with
      | some ar => if nodeLtB lt ai ar then 2 * i + 2 else i
      | none => i
  | none =>
    match a.get? (2 * i + 2) with
    | some ar => if nodeLtB lt ai ar then 2 * i + 2 else i
    | none => i

/-- Sift the element at `i` down: swap with the larger child while a child
compares larger (this is the classic heapify step realising the `std`
max-heap adjustment; on an array that is already a valid heap it does not
move anything). -/
def siftDownB {α : Type} (lt : α → α → Bool) :
    Nat → List (BNode α) → Nat → List (BNode α)
  | 0, a, _ => a
  | fuel + 1, a, i =>
    match a.get? i with
    | none => a
    | some ai =>
      if largestIdxB lt a i ai = i then a
      else siftDownB lt fuel (swapL a i (largestIdxB lt a i ai))
        (largestIdxB lt a i ai)

/-- C++ `std::make_heap`: Floyd's bottom-up heap construction, sifting down every
parent position from the last to the first. -/
def makeHeapB {α : Type} (lt : α → α → Bool) (a : List (BNode α)) :
    List (BNode α) :=
  (List.range (a.length / 2)).reverse.foldl
    (fun acc i => siftDownB lt (acc.length + 1) acc i) a

/-- The max-heap shape (with respect to the reversed node order): no parent
compares less than either of its children. -/
def isHeapB {α : Type} (lt : α → α → Bool) (a : List (BNode α)) : Bool :=
  (List.range a.length).all fun i =>
    (match a.get? i, a.get? (2 * i + 1) with
     | some p, some c => ! nodeLtB lt p c
     | _, _ => true) &&
    (match a.get? i, a.get? (2 * i + 2) with
     | some p, some c => ! nodeLtB lt p c
     | _, _ => true)

/-- C++ `Binary::Binary(std::initializer_list)`: allocate a node per key, then
`std::make_heap`. -/
def binCtor {α : Type} (lt : α → α → Bool) (keys : List α) : BinHeap α :=
  let nodes := (keys.enum).map fun p => BNode.mk p.1 p.2
  { heap := makeHeapB lt nodes, nextId := keys.length }

/-- C++ `Binary::insert`: push the new node at the back, `std::push_heap`. -/
def insertB {α : Type} (lt : α → α → Bool) (b : BinHeap α) (k : α) :
    BinHeap α × Nat :=
  let nd : BNode α := ⟨b.nextId, k⟩
  let a := b.heap ++ [nd]
  ({ heap := siftUpB lt (a.length + 1) a (a.length - 1),
     nextId := b.nextId + 1 }, b.nextId)

/-- C++ `Binary::get_minimum`: the front node, or null on an empty heap. -/
def get_minimumB {α : Type} (b : BinHeap α) : Option (BNode α) :=
  match b.heap with
  | [] => none
  | x :: _ => some x

/-- C++ `Binary::find_minimum`: `get_minimum()->key`; dereferences a null pointer
(crash, `none`) on an empty heap. -/
def find_minimumB {α : Type} (b : BinHeap α) : Option α :=
  (get_minimumB b).map (·.key)

/-- C++ `Binary::remove_minimum`: `std::pop_heap`, read the back, `pop_back`.
On an empty heap `pop_heap`/`back` are undefined behaviour (`none`). -/
def remove_minimumB {α : Type} (lt : α → α → Bool) (b : BinHeap α) :
    Option (BinHeap α × BNode α) :=
  match b.heap with
  | [] => none
  | x :: xs =>
    let last := xs.getLastD x
    let a2 := ((x :: xs).set 0 last).dropLast
    some ({ b with heap := siftDownB lt (a2.length + 1) a2 0 }, x)

/-- C++ `Binary::delete_minimum`: `remove_minimum()->key`. -/
def delete_minimumB {α : Type} (lt : α → α → Bool) (b : BinHeap α) :
    Option (BinHeap α × α) :=
  (remove_minimumB lt b).map fun p => (p.1, p.2.key)

/-- C++ `Binary::merge` (both overloads: the lvalue overload copies the argument
and delegates to the rvalue one): append the other heap's nodes, then
`std::make_heap` over everything. -/
def mergeB {α : Type} (lt : α → α → Bool) (b o : BinHeap α) : BinHeap α :=
  { heap := makeHeapB lt (b.heap ++ o.heap), nextId := b.nextId + o.nextId }

/-- C++ `std::is_heap_until`: index of the first child that violates the max-heap
shape against its parent, or the length when the whole array is a heap. -/
def isHeapUntilB {α : Type} (lt : α → α → Bool) (a : List (BNode α)) : Nat :=
  match ((List.range a.length).drop 1).find? (fun c =>
    match a.get? ((c - 1) / 2), a.get? c with
    | some p, some x => nodeLtB lt p x
    | _, _ => false) with
  | some c => c
  | none => a.length

/-- Result of an operation that can throw: `ok` carries the new state,
`thrown` carries the exception's two keys (new key, current key) and the heap
state at the throw, `crash` is undefined behaviour. -/
inductive BRes (α : Type) where
  | ok (b : BinHeap α)
  | thrown (knew kcur : α) (b : BinHeap α)
  | crash
deriving DecidableEq, Repr

/-- C++ `Binary::decrease_key(node, new_key)`: throws (with both keys in the
message) when `new_key > node->key` before any write; otherwise writes the
key, finds the first heap violation with `std::is_heap_until` and repairs the
prefix with `std::push_heap`. `gt` is the raw `operator>` of the key type. -/
def decrease_keyB {α : Type} (lt gt : α → α → Bool) (b : BinHeap α)
    (id : Nat) (k : α) : BRes α :=
  match b.heap.find? (fun x => x.id = id) with
  | none => BRes.crash
  | some nd =>
    if gt k nd.key then BRes.thrown k nd.key b
    else
      let a := b.heap.map fun x => if x.id = id then { x with key := k } else x
      let idx := isHeapUntilB lt a
      if idx < a.length then
        BRes.ok { b with heap := siftUpB lt (a.length + 1) a idx }
      else BRes.ok { b with heap := a }

/-- C++ `operator<<` for `Binary`: keys in array order, zero-padded to two
digits, separated by single spaces; empty heap renders as `""`. -/
def binToString (b : BinHeap Int) : String :=
  String.intercalate " " (b.heap.map fun nd => pad2 nd.key)

/-! ## Fibonacci heap (`src/include/heap/Fibonacci.hpp`)

`Fibonacci<K, Comparator>::node` holds a key, a `weak_ptr` parent
back-reference, a `std::list` of owning child pointers, a mark bit and a
removed flag. The heap holds the root list `trees` (owning pointers),
`num_elements`, the owning `minimum` pointer and the captured comparator
`cmp`. Node identity is a `Nat` id; the store maps live ids to node records.
A node leaves the store when its last owner disappears (the canonical usage
in which the caller does not retain the extracted pointer). -/

structure FNode where
  key : Int
  parent : Option Nat := none
  children : List Nat := []
  marked : Bool := false
  removed : Bool := false
deriving DecidableEq, Repr

structure Fib where
  store : List (Nat × FNode)
  trees : List Nat
  numElements : Nat
  minimum : Option Nat
  nextId : Nat
deriving DecidableEq, Repr

/-- Dereference a (shared or locked weak) pointer: `none` means the id is not
live, i.e. the C++ pointer would be null or expired. -/
def getN (h : Fib) (id : Nat) : Option FNode :=
  List.lookup id h.store

/-- Overwrite the record of a live node, first occurrence (ids are unique). -/
def setStore : List (Nat × FNode) → Nat → FNode → List (Nat × FNode)
  | [], _, _ => []
  | (i, x) :: rest, id, nd =>
    if id == i then (i, nd) :: rest else (i, x) :: setStore rest id nd

def setN (h : Fib) (id : Nat) (nd : FNode) : Fib :=
  { h with store := setStore h.store id nd }

def aliveF (h : Fib) (id : Nat) : Bool :=
  (getN h id).isSome

/-- C++ `node::is_root`: `parent.expired()` — true when the weak reference was
never set, was reset, or its target has been destroyed. -/
def isRootNd (h : Fib) (nd : FNode) : Bool :=
  match nd.parent with
  | none => true
  | some p => ! aliveF h p

/-- C++ `node::rank`: `children.size()`. -/
def rankOf (h : Fib) (id : Nat) : Nat :=
  match getN h id with
  | some nd => nd.children.length
  | none => 0

/-- The captured comparator
`cmp = [](lhs, rhs) { if (lhs->removed) return true; return Comparator()(lhs->key, rhs->key); }`
applied to two pointers; `none` models the null dereference when `lhs` (or,
for an unremoved `lhs`, `rhs`) is null/expired. -/
def cmpP (comp : Int → Int → Bool) (h : Fib) (a b : Option Nat) : Option Bool :=
  match a.bind (getN h) with
  | none => none
  | some la =>
    if la.removed then some true
    else
      match b.bind (getN h) with
      | none => none
      | some lb => some (comp la.key lb.key)

/-- C++ `Fibonacci::search_minimum`: `std::min_element` over the root list with
the raw comparison `a->key < b->key` (NOT the heap's `Comparator`);
`min_element` keeps the earliest of equal minima. Returns null on an empty
root list. -/
def search_minimumF (h : Fib) : Option Nat :=
  h.trees.foldl
    (fun acc id =>
      match acc with
      | none => some id
      | some m =>
        match getN h id, getN h m with
        | some a, some b => if a.key < b.key then some id else acc
        | _, _ => acc)
    none

/-- C++ `Fibonacci::Fibonacci(std::initializer_list)`: one single-node tree per
key (via `make_trees`), `num_elements` the key count, `minimum` from
`search_minimum`. -/
def fibCtor (keys : List Int) : Fib :=
  let store := keys.enum.map fun p => (p.1, ({ key := p.2 } : FNode))
  let h : Fib :=
    { store := store, trees := keys.enum.map (·.1),
      numElements := keys.length, minimum := none, nextId := keys.length }
  { h with minimum := search_minimumF h }

/-- C++ `Fibonacci::insert`: append a fresh single-node tree to the root list,
bump the count, and update `minimum` when the heap was empty or
`cmp(new, minimum)`; the latter dereferences a null `minimum` (crash) only in
states no operation sequence produces. -/
def insertF (comp : Int → Int → Bool) (h : Fib) (k : Int) :
    Option (Fib × Nat) :=
  let id := h.nextId
  let h' : Fib :=
    { h with store := h.store ++ [(id, { key := k })],
             trees := h.trees ++ [id],
             numElements := h.numElements + 1,
             nextId := id + 1 }
  if h'.numElements = 1 then some ({ h' with minimum := some id }, id)
  else
    match cmpP comp h' (some id) h'.minimum with
    | none => none
    | some true => some ({ h' with minimum := some id }, id)
    | some false => some (h', id)

/-- Rename every node id of a heap by adding `δ` (ids play the role of
addresses, which are arbitrary; renaming keeps two independently built heaps
disjoint, as distinct C++ allocations are). -/
def shiftFib (δ : Nat) (o : Fib) : Fib :=
  { store := o.store.map fun p =>
      (p.1 + δ, { p.2 with parent := p.2.parent.map (· + δ),
                           children := p.2.children.map (· + δ) }),
    trees := o.trees.map (· + δ),
    numElements := o.numElements,
    minimum := o.minimum.map (· + δ),
    nextId := o.nextId + δ }

/-- C++ `Fibonacci::merge` (both overloads: the lvalue overload copies the root
pointers, the rvalue overload splices them; either way this heap gains the
other's roots, counts are summed, and `cmp(fh.get_minimum(), minimum)`
decides the new minimum — dereferencing a null pointer (crash) whenever the
argument heap is empty). The argument's ids are shifted so the two address
spaces stay disjoint. -/
def mergeF (comp : Int → Int → Bool) (h o0 : Fib) : Option Fib :=
  let o := shiftFib h.nextId o0
  let h' : Fib :=
    { h with store := h.store ++ o.store,
             trees := h.trees ++ o.trees,
             numElements := h.numElements + o.numElements,
             nextId := o.nextId }
  match cmpP comp h' o.minimum h'.minimum with
  | none => none
  | some true => some { h' with minimum := o.minimum }
  | some false => some h'

/-- C++ `Fibonacci::get_minimum`: the cached minimum pointer (possibly null). -/
def get_minimumF (h : Fib) : Option Nat :=
  h.minimum

/-- C++ `Fibonacci::find_minimum`: `get_minimum()->key`; dereferences a null
pointer (crash, `none`) when the cached minimum is null. -/
def find_minimumF (h : Fib) : Option Int :=
  (h.minimum.bind (getN h)).map (·.key)

/-- C++ `Fibonacci::link`: make the `cmp`-larger root a child of the
`cmp`-smaller one (appended at the back of its children), set the loser's
parent back-reference, and return the winner. -/
def linkF (comp : Int → Int → Bool) (h : Fib) (lhs rhs : Nat) :
    Option (Fib × Nat) :=
  match cmpP comp h (some lhs) (some rhs) with
  | none => none
  | some true =>
    match getN h lhs, getN h rhs with
    | some ln, some rn =>
      let h := setN h lhs { ln with children := ln.children ++ [rhs] }
      some (setN h rhs { rn with parent := some lhs }, lhs)
    | _, _ => none
  | some false =>
    match getN h lhs, getN h rhs with
    | some ln, some rn =>
      let h := setN h rhs { rn with children := rn.children ++ [lhs] }
      some (setN h lhs { ln with parent := some rhs }, rhs)
    | _, _ => none

/-- C++ `floor(log2(n))` for `n ≥ 1` (the `std::floor(std::log2(n))` of
`consolidate`, exact for the sizes at hand). -/
def log2Aux : Nat → Nat → Nat
  | 0, _ => 0
  | fuel + 1, n => if n ≤ 1 then 0 else 1 + log2Aux fuel (n / 2)

def log2F (n : Nat) : Nat := log2Aux n n

/-- The root `std::list` inside `consolidate`, as (position, node id) pairs:
list iterators are stable positions; `trees.erase` deletes a position,
`*it = ...` overwrites the content of a position. -/
def lookupPos (ps : List (Nat × Nat)) (p : Nat) : Option Nat :=
  List.lookup p ps

def writePos (ps : List (Nat × Nat)) (p : Nat) (id : Nat) :
    List (Nat × Nat) :=
  ps.map fun q => if q.1 = p then (p, id) else q

def erasePos (ps : List (Nat × Nat)) (p : Nat) : List (Nat × Nat) :=
  ps.filter fun q => q.1 ≠ p

/-- The inner `while` of `Fibonacci::consolidate`, operating on position
`currPos`:

    while (root_with_rank[(*curr_it)->rank()] != trees.end()) {
      auto other_it = root_with_rank[(*curr_it)->rank()];
      (*other_it) = link(*curr_it, *other_it);
      root_with_rank[(*curr_it)->rank()] = trees.end();
      trees.erase(curr_it);
      curr_it = other_it;
    }

Note the table slot cleared after the link is indexed by the rank that
`*curr_it` has AFTER linking. Reading or writing `root_with_rank` out of
range, or following a table entry whose position has been erased, is
undefined behaviour (`none`). Each non-final iteration erases one position,
so the fuel (called with the position count plus one) suffices. -/
def consInner (comp : Int → Int → Bool) :
    Nat → Fib → List (Nat × Nat) → List (Option Nat) → Nat →
    Option (Fib × List (Nat × Nat) × List (Option Nat) × Nat)
  | 0, _, _, _, _ => none
  | fuel + 1, h, ps, table, currPos =>
    match lookupPos ps currPos with
    | none => none
    | some currId =>
      match table.get? (rankOf h currId) with
      | none => none
      | some none => some (h, ps, table, currPos)
      | some (some otherPos) =>
        match lookupPos ps otherPos with
        | none => none
        | some otherId =>
          match linkF comp h currId otherId with
          | none => none
          | some (h, winner) =>
            let ps := writePos ps otherPos winner
            let r2 := rankOf h currId
            if r2 < table.length then
              consInner comp fuel h (erasePos ps currPos)
                (table.set r2 none) otherPos
            else none

/-- The outer `for` of `consolidate`: every original root position is
processed once, in order (the `++it` before / `--it` after the body and the
erasures inside the inner loop combine to exactly this traversal); after the
inner loop the surviving position is registered in the table under its
node's rank. -/
def consOuter (comp : Int → Int → Bool) :
    List Nat → Fib → List (Nat × Nat) → List (Option Nat) →
    Option (Fib × List (Nat × Nat) × List (Option Nat))
  | [], h, ps, table => some (h, ps, table)
  | p :: rest, h, ps, table =>
    match consInner comp (ps.length + 1) h ps table p with
    | none => none
    | some (h, ps, table, finalPos) =>
      match lookupPos ps finalPos with
      | none => none
      | some finalId =>
        let r := rankOf h finalId
        if r < table.length then
          consOuter comp rest h ps (table.set r (some finalPos))
        else none

/-- C++ `Fibonacci::consolidate`: returns unchanged when `num_elements == 0`;
otherwise runs the table-driven linking pass over the root list and rebuilds
`trees` from the surviving positions in order. -/
def consolidateF (comp : Int → Int → Bool) (h : Fib) : Option Fib :=
  if h.numElements = 0 then some h
  else
    let maxRank := log2F h.numElements
    let ps := h.trees.enum
    let table : List (Option Nat) := List.replicate (maxRank + 1) none
    match consOuter comp (ps.map (·.1)) h ps table with
    | none => none
    | some (h, ps, _) => some { h with trees := ps.map (·.2) }

/-- Is the node still owned by a container (the root list or some children
list)? When not, dropping the last caller-side pointer destroys it. -/
def ownedF (h : Fib) (id : Nat) : Bool :=
  h.trees.contains id || h.store.any fun p => p.2.children.contains id

/-- C++ `Fibonacci::remove_minimum`: detach the cached minimum from the root
list (`std::list::remove` — removes nothing when the node is not a root),
decrement the count, splice its children onto the end of the root list,
consolidate, recompute `minimum` by `search_minimum`, and return the node.
Null `minimum` is dereferenced (crash). The detached node is destroyed
(leaves the store) once no container owns it and the returned pointer is
dropped, which expires its children's parent back-references; a node that is
still owned (e.g. still some parent's child) survives. -/
def remove_minimumF (comp : Int → Int → Bool) (h : Fib) :
    Option (Fib × Int) :=
  match h.minimum with
  | none => none
  | some mid =>
    match getN h mid with
    | none => none
    | some mnd =>
      let h := { h with trees := h.trees.filter (· ≠ mid),
                        numElements := h.numElements - 1 }
      let h := { h with trees := h.trees ++ mnd.children }
      let h := setN h mid { mnd with children := [] }
      match consolidateF comp h with
      | none => none
      | some h =>
        let h := { h with minimum := search_minimumF h }
        let h :=
          if ownedF h mid then h
          else { h with store := h.store.filter (·.1 ≠ mid) }
        some (h, mnd.key)

/-- C++ `Fibonacci::delete_minimum`: `remove_minimum()->key`. -/
def delete_minimumF (comp : Int → Int → Bool) (h : Fib) :
    Option (Fib × Int) :=
  remove_minimumF comp h

/-- C++ `Fibonacci::cut`: remove the node from its parent's children list
(dereferencing the locked parent — crash when the back-reference is null or
expired), append it to the root list, clear its mark, reset its parent. -/
def cutF (h : Fib) (id : Nat) : Option Fib :=
  match getN h id with
  | none => none
  | some nd =>
    match nd.parent with
    | none => none
    | some p =>
      match getN h p with
      | none => none
      | some pnd =>
        let h := setN h p { pnd with children := pnd.children.filter (· ≠ id) }
        let h := { h with trees := h.trees ++ [id] }
        some (setN h id { nd with marked := false, parent := none })

/-- C++ `Fibonacci::mark`: set the mark bit unless the node is a root. -/
def markF (h : Fib) (id : Nat) : Option Fib :=
  match getN h id with
  | none => none
  | some nd =>
    if isRootNd h nd then some h
    else some (setN h id { nd with marked := true })

/-- The statements after the loop of `cascade_cut`:
`auto parent = node->parent.lock(); mark(parent); cut(node);` — `mark`
dereferences a null pointer (crash) when the node is a root. -/
def cascadeFinal (h : Fib) (id : Nat) : Option Fib :=
  match getN h id with
  | none => none
  | some nd =>
    match nd.parent with
    | none => none
    | some p =>
      match getN h p with
      | none => none
      | some _ =>
        match markF h p with
        | none => none
        | some h => cutF h id

/-- C++ `Fibonacci::cascade_cut`: cut the node and walk up while the parent is
marked, then mark-and-cut once more. The chain strictly ascends the forest,
so fuel = store size + 1 suffices. -/
def cascade_cutF : Nat → Fib → Nat → Option Fib
  | 0, _, _ => none
  | fuel + 1, h, id =>
    match getN h id with
    | none => none
    | some nd =>
      if isRootNd h nd then cascadeFinal h id
      else
        match nd.parent with
        | none => none
        | some p =>
          match getN h p with
          | none => none
          | some pnd =>
            if pnd.marked then
              match cutF h id with
              | none => none
              | some h => cascade_cutF fuel h p
            else cascadeFinal h id

/-- Result of `Fibonacci::decrease_key` and of the operations built on it. -/
inductive FRes where
  | ok (h : Fib)
  | thrown (knew kcur : Int) (h : Fib)
  | crash
deriving DecidableEq, Repr

/-- C++ `Fibonacci::decrease_key(node, new_key)`:
1. throw (carrying both keys) when `Comparator()(node->key, new_key)`;
2. write the new key; update `minimum` when `cmp(node, minimum)`;
3. return when the node is a root;
4. return when `cmp(parent, node)` (heap order intact — note the node is the
   right argument, so its removed flag is never consulted here);
5. unmarked parent: `mark(parent)` then `cut(node)`;
6. marked parent: `cascade_cut(node)`. -/
def decrease_keyF (comp : Int → Int → Bool) (h : Fib) (id : Nat) (k : Int) :
    FRes :=
  match getN h id with
  | none => FRes.crash
  | some nd0 =>
    if comp nd0.key k then FRes.thrown k nd0.key h
    else
      let h := setN h id { nd0 with key := k }
      match cmpP comp h (some id) h.minimum with
      | none => FRes.crash
      | some b =>
        let h := if b then { h with minimum := some id } else h
        match getN h id with
        | none => FRes.crash
        | some nd =>
          if isRootNd h nd then FRes.ok h
          else
            match nd.parent with
            | none => FRes.crash
            | some p =>
              match cmpP comp h (some p) (some id) with
              | none => FRes.crash
              | some true => FRes.ok h
              | some false =>
                match getN h p with
                | none => FRes.crash
                | some pnd =>
                  if ! pnd.marked then
                    match markF h p with
                    | none => FRes.crash
                    | some h =>
                      match cutF h id with
                      | none => FRes.crash
                      | some h => FRes.ok h
                  else
                    match cascade_cutF (h.store.length + 1) h id with
                    | none => FRes.crash
                    | some h => FRes.ok h

/-- C++ `Fibonacci::remove`: set the removed flag, `decrease_key` with the node's
own key, then `delete_minimum`. A thrown exception cannot occur with a strict
comparator (`Comparator()(k, k)` is false); both it and undefined behaviour
are collapsed to `none`. -/
def removeF (comp : Int → Int → Bool) (h : Fib) (id : Nat) : Option Fib :=
  match getN h id with
  | none => none
  | some nd =>
    let h := setN h id { nd with removed := true }
    match decrease_keyF comp h id nd.key with
    | FRes.ok h =>
      match delete_minimumF comp h with
      | some (h, _) => some h
      | none => none
    | _ => none

/-- C++ `Fibonacci::print_trees`: each tree as `(KEY[*] child1 child2 …)` with
two-digit zero-padded keys, `*` after a marked node's key, children
space-separated; sibling trees separated by single spaces. Fuel bounds the
tree depth. -/
def printTreesF : Nat → Fib → List Nat → String
  | 0, _, _ => ""
  | fuel + 1, h, roots =>
    String.intercalate " " (roots.map fun id =>
      match getN h id with
      | none => "?"
      | some nd =>
        "(" ++ pad2 nd.key ++ (if nd.marked then "*" else "") ++
        (if nd.children.isEmpty then "" else " " ++ printTreesF fuel h nd.children)
        ++ ")")

/-- C++ `Fibonacci::to_string`: the root list rendering. -/
def fibToString (h : Fib) : String :=
  printTreesF (h.store.length + 1) h h.trees

/-- All keys in the forest, in depth-first root-list order (the key multiset
actually stored in the heap's trees). -/
def forestKeys : Nat → Fib → List Nat → List Int
  | 0, _, _ => []
  | fuel + 1, h, roots =>
    roots.foldl
      (fun acc id =>
        match getN h id with
        | none => acc
        | some nd => acc ++ [nd.key] ++ forestKeys fuel h nd.children)
      []

def fibForestKeys (h : Fib) : List Int :=
  forestKeys (h.store.length + 1) h h.trees

/-! ## Dijkstra (`src/include/graph/dijkstra.hpp`)

The headers `graph/Key.hpp` and `graph/Weight.hpp` are not part of the
sources at hand; from the spec and the uses in `dijkstra.hpp` /
`Graph.hpp`, `Key` is a vertex index (`Nat` here), `InvalidKey` a sentinel
(modelled by `Option Nat` with `none`), `Weight` a non-negative numeric
distance initialised to `Infinity` (modelled by `W` below; the test graphs
use integer weights). `graph::Edge` carries a target key and a weight and
compares by weight only; `Graph` is an adjacency vector of edge vectors.

`dijkstra` is parametric in the priority queue; the repository instantiates
it with both heaps. The model instantiates it with the Binary heap (the
queue here only ever needs insert / find-min / delete-min of valid states,
on which both implementations realise the same priority-queue contract
surface used by the driver). -/

/-- C++ `Weight`: a tentative distance, `inf` being `Infinity`. -/
inductive W where
  | inf
  | fin (n : Nat)
deriving DecidableEq, Repr

/-- C++ `d[u] + w` (`Infinity` absorbs). -/
def addW : W → Nat → W
  | W.inf, _ => W.inf
  | W.fin a, w => W.fin (a + w)

/-- C++ `d[v] > d[u] + w`. -/
def gtW : W → W → Bool
  | W.inf, W.inf => false
  | W.inf, W.fin _ => true
  | W.fin _, W.inf => false
  | W.fin a, W.fin b => decide (b < a)

/-- C++ `graph::Edge` as stored in the priority queue: a vertex key and a
weight. -/
structure DEdge where
  key : Nat
  weight : W
deriving DecidableEq, Repr

/-- C++ `operator<` on `graph::Edge`: `lhs.weight < rhs.weight`. -/
def edgeLt (a b : DEdge) : Bool :=
  match a.weight, b.weight with
  | W.fin x, W.fin y => decide (x < y)
  | W.fin _, W.inf => true
  | W.inf, _ => false

/-- C++ `graph::Graph`: adjacency lists of (target, weight) pairs. -/
def GraphM := List (List (Nat × Nat))

/-- The mutable state of the `while` loop: tentative distances, parent
links (`none` = `InvalidKey`), and the priority queue. -/
structure DState where
  d : List W
  parent : List (Option Nat)
  q : BinHeap DEdge
deriving Repr

/-- The body of the relaxation `for` over `G[u]`:
`if (d[v] > d[u] + w) { d[v] = d[u] + w; parent[v] = u; Q.insert(Edge{v, d[v]}); }`
(`none` on an out-of-range vertex access). -/
def relaxAll (u : Nat) : List (Nat × Nat) → DState → Option DState
  | [], st => some st
  | (v, w) :: es, st =>
    match st.d.get? v, st.d.get? u with
    | some dv, some du =>
      if gtW dv (addW du w) then
        relaxAll u es
          { d := st.d.set v (addW du w),
            parent := st.parent.set v (some u),
            q := (insertB edgeLt st.q ⟨v, addW du w⟩).1 }
      else relaxAll u es st
    | _, _ => none

/-- The `while (!Q.empty())` loop: peek the minimum, stop at the
destination, pop, relax the outgoing edges, repeat. -/
def dLoop (g : GraphM) (t : Nat) : Nat → DState → Option DState
  | 0, _ => none
  | fuel + 1, st =>
    if st.q.heap.isEmpty then some st
    else
      match find_minimumB st.q with
      | none => none
      | some e =>
        if e.key = t then some st
        else
          match remove_minimumB edgeLt st.q with
          | none => none
          | some (q', _) =>
            match g.get? e.key with
            | none => none
            | some es =>
              match relaxAll e.key es { st with q := q' } with
              | none => none
              | some st' => dLoop g t fuel st'

/-- The path-reconstruction loop:
`for (Key p = destination; parent[p] != InvalidKey; p = parent[p]) path.push_back(p);` -/
def reconLoop : Nat → List (Option Nat) → Nat → List Nat → Option (List Nat)
  | 0, _, _, _ => none
  | fuel + 1, par, p, acc =>
    match par.get? p with
    | none => none
    | some none => some acc
    | some (some q) => reconLoop fuel par q (acc ++ [p])

/-- C++ `graph::dijkstra<PriorityQueue>(G, source, destination)`. The two
`assert`s abort (`none`) on out-of-range endpoints. Fuel bounds the loop
(the C++ loop terminates on non-negative weights; `none` on exhausted fuel
means only that more fuel is needed). -/
def dijkstraF (fuel : Nat) (g : GraphM) (s t : Nat) : Option (List Nat) :=
  if s < g.length ∧ t < g.length then
    match dLoop g t fuel
        { d := (List.replicate g.length W.inf).set s (W.fin 0),
          parent := List.replicate g.length none,
          q := (insertB edgeLt ⟨[], 0⟩ ⟨s, W.fin 0⟩).1 } with
    | none => none
    | some st =>
      match reconLoop fuel st.parent t [] with
      | none => none
      | some path => some ((path ++ [s]).reverse)
  else none

/-- Directed reachability along the adjacency structure (used to state the
"unreachable destination" property). -/
inductive ReachG (g : GraphM) (s : Nat) : Nat → Prop where
  | refl : ReachG g s s
  | step {u v w : Nat} : ReachG g s u → (v, w) ∈ (g.get? u).getD [] →
      ReachG g s v

/-- Loop invariant of the driver: the parent array spans the graph, every
set parent entry marks a vertex already reached from the source, and every
queue entry's vertex is reachable from the source. -/
def DInv (g : GraphM) (s : Nat) (st : DState) : Prop :=
  st.parent.length = g.length ∧
  (∀ v u, st.parent.get? v = some (some u) → ReachG g s v) ∧
  (∀ bn ∈ st.q.heap, ReachG g s bn.key.key)

/-! ## Concrete states

Operation-sequence builders (each step propagates a crash), the fixture
heaps of `src/test/heap/FibonacciTest.cpp` / `BinaryTest.cpp`, and the
fixture graphs of `src/test/graph/dijkstraTest.cpp`. Insertion ids are
assigned in order, so in the ten-insert fixture the node inserted with key
42 has id 7, the one with key 5 has id 1, the one with key 88 has id 9. -/

def fibIns (comp : Int → Int → Bool) (oh : Option Fib) (k : Int) :
    Option Fib :=
  oh.bind fun h => (insertF comp h k).map (·.1)

def fibDel (comp : Int → Int → Bool) (oh : Option Fib) : Option Fib :=
  oh.bind fun h => (delete_minimumF comp h).map (·.1)

def fibDec (comp : Int → Int → Bool) (oh : Option Fib) (id : Nat) (k : Int) :
    Option Fib :=
  oh.bind fun h =>
    match decrease_keyF comp h id k with
    | FRes.ok h2 => some h2
    | _ => none

def fibDefault : Fib := ⟨[], [], 0, none, 0⟩

/-- The `AReorganizedFibonacciHeap` fixture (= scenario S2): insert
3, 5, 8, 13, 21, 34, 55, 42, 72, 88 into an empty heap, then
`delete_minimum`. -/
def hS2 : Option Fib :=
  fibDel intLt
    ([3, 5, 8, 13, 21, 34, 55, 42, 72, 88].foldl (fibIns intLt)
      (some (fibCtor [])))

/-- Scenario S3: `decrease_key` of the node inserted with key 42 (id 7)
to 7 on the S2 heap. -/
def hS3 : Option Fib := fibDec intLt hS2 7 7

/-- The S3 heap after one more `delete_minimum` (used for the consolidation
and mark-bit claims). -/
def hC2val : Option Fib := fibDel intLt hS3

/-- The S2 heap after `remove` of the (non-root) node inserted with key 42
(id 7, child of the node with key 34). -/
def hC3val : Option Fib := hS2.bind fun h => removeF intLt h 7

/-- A max-heap (`Comparator = std::greater<int>`): insert 3, 2, 1, 9, then
`delete_minimum` (which correctly removes 9, the greater-least). -/
def hC1val : Option Fib :=
  fibDel intGt ([3, 2, 1, 9].foldl (fibIns intGt) (some (fibCtor [])))

/-- Insert 0, 5, 5 and `delete_minimum`: the two equal keys get linked, so
the remaining forest is `(05 (05))` — a child whose key equals its
parent's. -/
def hC7h : Fib :=
  (fibDel intLt ([0, 5, 5].foldl (fibIns intLt) (some (fibCtor [])))).getD
    fibDefault

/-- The result of `decrease_key(node of id 2, 5)` — its current key — on
`hC7h`. -/
def hC7post : Fib :=
  match decrease_keyF intLt hC7h 2 5 with
  | FRes.ok h2 => h2
  | _ => fibDefault

/-- The empty binary heap (`Binary()` constructs an empty vector). -/
def binEmpty (α : Type) : BinHeap α := ⟨[], 0⟩

/-- The `ADirectedGraph` fixture: edges 0→1:7, 0→2:9, 0→5:14, 1→2:10,
1→3:15, 2→5:2, 2→3:11, 3→4:6, 4→5:9. -/
def gDir : GraphM :=
  [[(1, 7), (2, 9), (5, 14)],
   [(2, 10), (3, 15)],
   [(5, 2), (3, 11)],
   [(4, 6)],
   [(5, 9)],
   []]

/-- The `AnUndirectedGraph` fixture: both directions of each edge above. -/
def gUnd : GraphM :=
  [[(1, 7), (2, 9), (5, 14)],
   [(0, 7), (2, 10), (3, 15)],
   [(0, 9), (1, 10), (5, 2), (3, 11)],
   [(1, 15), (2, 11), (4, 6)],
   [(3, 6), (5, 9)],
   [(0, 14), (2, 2), (4, 9)]]

/-! ## Model validation

The embedding reproduces, bit for bit, every rendering, size and minimum
asserted by the repository's own test suites (`FibonacciTest.cpp`,
`BinaryTest.cpp`, `dijkstraTest.cpp`), including spec scenarios S1–S6. -/

theorem model_check_S1 :
    fibToString (fibCtor [3, 5, 8, 13, 21, 34, 55]) =
      "(03) (05) (08) (13) (21) (34) (55)" ∧
    find_minimumF (fibCtor [3, 5, 8, 13, 21, 34, 55]) = some 3 := by
  decide

theorem model_check_S2 :
    hS2.map (fun h => (fibToString h, h.numElements)) =
      some ("(05 (08) (13 (21)) (34 (55) (42 (72)))) (88)", 9) ∧
    hS2.bind find_minimumF = some 5 := by
  decide

theorem model_check_S3 :
    hS3.map fibToString =
      some "(05 (08) (13 (21)) (34* (55))) (88) (07 (72))" ∧
    hS3.bind find_minimumF = some 5 := by
  decide

theorem model_check_S4 :
    (fibDec intLt hS3 6 6).map fibToString =
      some "(05 (08) (13 (21))) (88) (07 (72)) (06) (34)" := by
  decide

theorem model_check_S5 :
    (hS2.bind fun h => removeF intLt h 1).map
        (fun h => (fibToString h, h.numElements)) =
      some ("(08 (88) (13 (21)) (34 (55) (42 (72))))", 8) := by
  decide

theorem model_check_remove_root_88 :
    (hS2.bind fun h => removeF intLt h 9).map
        (fun h => (fibToString h, h.numElements)) =
      some ("(05 (08) (13 (21)) (34 (55) (42 (72))))", 8) := by
  decide

theorem model_check_fib_remove_min :
    (remove_minimumF intLt (fibCtor [3, 5, 8, 13, 21, 34, 55])).map
        (fun p => (fibToString p.1, p.2)) =
      some ("(05 (08) (13 (21))) (34 (55))", 3) := by
  decide

theorem model_check_fib_merge :
    (mergeF intLt (fibCtor [3, 5, 8, 13, 21, 34, 55]) (fibCtor [1])).map
        (fun h => (fibToString h, h.numElements, find_minimumF h)) =
      some ("(03) (05) (08) (13) (21) (34) (55) (01)", 8, some 1) := by
  decide

theorem model_check_bin_ctor_insert :
    binToString (binCtor intLt [3, 5, 8, 13, 21, 34, 55]) =
      "03 05 08 13 21 34 55" ∧
    binToString (insertB intLt (binCtor intLt [3, 5, 8, 13, 21, 34, 55]) 1).1 =
      "01 03 08 05 21 34 55 13" := by
  decide

theorem model_check_bin_remove_merge :
    (remove_minimumB intLt (binCtor intLt [3, 5, 8, 13, 21, 34, 55])).map
        (fun p => (binToString p.1, p.2.key)) =
      some ("05 13 08 55 21 34", 3) ∧
    binToString (mergeB intLt (binCtor intLt [3, 5, 8, 13, 21, 34, 55])
        (binCtor intLt [1])) = "01 03 08 05 21 34 55 13" := by
  decide

theorem model_check_bin_decrease :
    ((delete_minimumB intLt
        ([3, 5, 8, 13, 21, 34, 55, 42, 72, 88].foldl
          (fun b k => (insertB intLt b k).1) (binCtor intLt []))).map
      (fun p =>
        (binToString p.1,
         match decrease_keyB intLt intGtRaw p.1 1 2 with
         | BRes.ok b2 => binToString b2
         | _ => "",
         match decrease_keyB intLt intGtRaw p.1 9 7 with
         | BRes.ok b2 => binToString b2
         | _ => ""))) =
      some ("05 13 08 42 21 34 55 88 72",
            "02 13 08 42 21 34 55 88 72",
            "05 07 08 13 21 34 55 42 72") := by
  decide

theorem model_check_dijkstra :
    dijkstraF 100 gDir 5 0 = some [5] ∧
    dijkstraF 100 gDir 0 0 = some [0] ∧
    dijkstraF 100 gDir 0 4 = some [0, 2, 3, 4] ∧
    dijkstraF 100 gUnd 0 4 = some [0, 2, 5, 4] ∧
    dijkstraF 100 ([] : GraphM) 0 4 = none := by
  decide

/-! ## Claims -/

/-- C1: after every public operation, `find_minimum` is claimed to return
the least present key *by the heap's comparator*. Refuted on
`Fibonacci<int, std::greater<int>>`: after insert 3, 2, 1, 9 and one
`delete_minimum` (which correctly extracts 9), the forest holds keys
3, 2, 1 as roots `(03 (02)) (01)`, yet `find_minimum` returns 1, because
`search_minimum` compares roots with the raw `a->key < b->key` instead of
the comparator; the comparator-least key present is 3 (the comparator
orders 3 strictly before 1, third conjunct). -/
theorem fib_find_minimum_ignores_comparator :
    hC1val.bind find_minimumF = some 1 ∧
    hC1val.map fibForestKeys = some [3, 2, 1] ∧
    intGt 3 1 = true := by
  decide

/-- C2: no two roots may share a rank after extract-min. Refuted: insert
3, 5, 8, 13, 21, 34, 55, 42, 72, 88; `delete_minimum`;
`decrease_key(node 42, 7)`; `delete_minimum`. The second consolidation
links the root 8 under itself winning against 88 and then clears
`root_with_rank` at the winner's *new* rank (1) instead of the matched rank
(0), wiping the registered rank-1 root `(07 (72))`; the final root list has
ranks [2, 1, 1] — two roots of rank 1. -/
theorem fib_consolidate_leaves_duplicate_ranks :
    (hC2val.map fun h => h.trees.map (rankOf h)) = some [2, 1, 1] ∧
    ¬ ([2, 1, 1] : List Nat).Nodup := by
  decide

/-- C3: `remove(h)` on a live non-root handle is claimed to remove exactly
that node. Refuted on the S2 heap with the node of key 42 (a child of the
node of key 34): `decrease_key` tests heap order with `cmp(parent, node)`,
whose left argument is the *parent*, so the node's fresh removed flag is
never consulted; since 34 < 42 the test passes and no cut happens. The
node, now the cached minimum, is not in the root list, so
`remove_minimum`'s `trees.remove` removes nothing; its child 72 is spliced
to the roots, the count drops to 8 — but all nine keys, 42 included, are
still in the forest. -/
theorem fib_remove_nonroot_leaves_node_in_forest :
    (hC3val.map fun h => (fibForestKeys h, h.numElements, fibToString h)) =
      some ([5, 8, 13, 21, 34, 55, 42, 72, 88], 8,
            "(05 (08) (13 (21)) (34 (55) (42))) (72 (88))") := by
  decide

/-- C6: extract-min is claimed to clear the promoted children's mark bits
(and parent references), so that no root is ever marked. Refuted by the
same sequence as C2: `remove_minimum` splices `deleted->children` without
touching their mark bits, and after the second extract-min the root with
key 34 is still marked — the rendering shows a marked root `(34* (55))`. -/
theorem fib_extract_min_keeps_marks :
    (hC2val.map fun h =>
        (fibToString h,
         h.trees.any fun id => ((getN h id).map (·.marked)).getD false)) =
      some ("(08 (88) (13 (21))) (07 (72)) (34* (55))", true) := by
  decide

/-- C4 counterexample: on the directed test graph, destination 0 is
unreachable from source 5, and `dijkstra` returns `[5]` — the *source*
(`path.push_back(source)` runs unconditionally after the parent walk), not
the single-element sequence `[0]` (the destination) the claim states. The
repository's own test `CanFindMinPathBetweenUnconnectedNodes…` asserts
exactly `ElementsAre(5)`. -/
theorem dijkstra_unreachable_returns_source_cex :
    dijkstraF 100 gDir 5 0 = some [5] ∧ ([5] : List Nat) ≠ [0] := by
  decide

/-- C5 counterexample: on empty heaps neither `find_minimum` nor
`remove_minimum` reports a recoverable *Empty* error — neither
implementation checks `n = 0` at all. `Fibonacci::find_minimum`
dereferences the null cached minimum, `Fibonacci::remove_minimum`
dereferences it after decrementing the `size_t` count,
`Binary::find_minimum` dereferences the null `get_minimum()` result and
`Binary::remove_minimum` pops an empty vector: all undefined behaviour
(`none` in the model), not an error value reported to the caller (compare
`FRes.thrown` / `BRes.thrown`, the model's image of the one `throw` the
heaps contain). -/
theorem empty_heap_no_empty_error_cex :
    find_minimumF (fibCtor []) = none ∧
    remove_minimumF intLt (fibCtor []) = none ∧
    find_minimumB (binEmpty Int) = none ∧
    remove_minimumB intLt (binEmpty Int) = none := by
  decide

/-- C7 counterexample: `decrease_key(h, current-key)` is claimed to be a
no-op that never mutates the forest, in particular whenever the node's key
is still ≥ its parent's key. On the forest `(05 (05))` (built by inserting
0, 5, 5 and extracting 0), decreasing the child's key to its current value
5 finds `cmp(parent, node)` false — `Comparator()(5, 5)` — although heap
order (node ≥ parent) holds, so the child is cut: the call succeeds but
returns a *different* heap, `(05) (05)`. -/
theorem fib_decrease_key_same_key_cuts_on_equal_parent :
    decrease_keyF intLt hC7h 2 5 = FRes.ok hC7post ∧
    hC7post ≠ hC7h ∧
    fibToString hC7h = "(05 (05))" ∧
    fibToString hC7post = "(05) (05)" := by
  decide

/-- C9 counterexample: `merge(empty)` on a Fibonacci heap is not a no-op:
both overloads evaluate `cmp(fh.get_minimum(), minimum)` and the empty
argument's `get_minimum()` is null, so `lhs->removed` dereferences a null
pointer (crash), here on the one-element heap `(01)`. -/
theorem fib_merge_empty_crashes_cex :
    mergeF intLt (fibCtor [1]) (fibCtor []) = none := by
  decide

/-- C10: on an empty heap `get_minimum` returns the null handle rather
than an error: `Binary::get_minimum` is `size() > 0 ? front : nullptr`,
and an empty-constructed Fibonacci heap caches `search_minimum` over an
empty root list (null) and prints as the empty string. -/
theorem empty_get_minimum_null :
    (∀ b : BinHeap Int, b.heap = [] → get_minimumB b = none) ∧
    (get_minimumF (fibCtor []) = none ∧ fibToString (fibCtor []) = "") := by
  refine ⟨fun b hb => ?_, by decide⟩
  simp [get_minimumB, hb]

/-- Witness for `empty_get_minimum_null` on the empty binary heap. -/
theorem empty_get_minimum_null_witness :
    get_minimumB (binEmpty Int) = none :=
  empty_get_minimum_null.1 (binEmpty Int) rfl

/-- C5 amended: on a heap with `n = 0` (whose minimum cache is
correspondingly null / whose vector is empty), `find_minimum` and
`remove_minimum` perform no emptiness check and hit undefined behaviour —
a null dereference for the Fibonacci heap and for `Binary::find_minimum`,
an empty-vector pop for `Binary::remove_minimum` — instead of reporting a
recoverable *Empty* error; the null-returning `get_minimum` is the only
safe empty-heap query. -/
theorem empty_heap_ops_crash :
    (∀ h : Fib, h.numElements = 0 → h.minimum = none →
      find_minimumF h = none ∧ remove_minimumF intLt h = none) ∧
    (∀ b : BinHeap Int, b.heap = [] →
      find_minimumB b = none ∧ remove_minimumB intLt b = none) := by
  constructor
  · intro h _ hmin
    refine ⟨?_, ?_⟩
    · simp [find_minimumF, hmin]
    · simp [remove_minimumF, hmin]
  · intro b hb
    refine ⟨?_, ?_⟩
    · simp [find_minimumB, get_minimumB, hb]
    · simp [remove_minimumB, hb]

/-- Witness for `empty_heap_ops_crash` at the two empty-constructed
heaps. -/
theorem empty_heap_ops_crash_witness :
    (find_minimumF (fibCtor []) = none ∧
     remove_minimumF intLt (fibCtor []) = none) ∧
    (find_minimumB (binEmpty Int) = none ∧
     remove_minimumB intLt (binEmpty Int) = none) :=
  ⟨empty_heap_ops_crash.1 (fibCtor []) rfl rfl,
   empty_heap_ops_crash.2 (binEmpty Int) rfl⟩

/-- C8: `decrease_key(h, k)` with `k` strictly greater than the node's
current key throws on both heaps — `Fibonacci` tests
`Comparator()(node->key, new_key)`, `Binary` tests `new_key > node->key` —
with a message carrying both offending keys (`thrown k cur`), and the
validation precedes every write, so the heap state at the throw is the
untouched input state. -/
theorem decrease_key_increased_key_throws :
    (∀ (h : Fib) (id : Nat) (nd : FNode) (k : Int),
      getN h id = some nd → intLt nd.key k = true →
      decrease_keyF intLt h id k = FRes.thrown k nd.key h) ∧
    (∀ (b : BinHeap Int) (id : Nat) (nd : BNode Int) (k : Int),
      b.heap.find? (fun x => x.id = id) = some nd → intGtRaw k nd.key = true →
      decrease_keyB intLt intGtRaw b id k = BRes.thrown k nd.key b) := by
  constructor
  · intro h id nd k hget hlt
    simp [decrease_keyF, hget, hlt]
  · intro b id nd k hfind hgt
    simp [decrease_keyB, hfind, hgt]

/-- Witness for `decrease_key_increased_key_throws` on one-element heaps
with current key 4 and new key 9. -/
theorem decrease_key_increased_key_throws_witness :
    decrease_keyF intLt (fibCtor [4]) 0 9 = FRes.thrown 9 4 (fibCtor [4]) ∧
    decrease_keyB intLt intGtRaw (binCtor intLt [4]) 0 9 =
      BRes.thrown 9 4 (binCtor intLt [4]) :=
  ⟨decrease_key_increased_key_throws.1 (fibCtor [4]) 0
      ⟨4, none, [], false, false⟩ 9 (by decide) (by decide),
   decrease_key_increased_key_throws.2 (binCtor intLt [4]) 0 ⟨0, 4⟩ 9
      (by decide) (by decide)⟩

/-- Writing back the record a key already maps to leaves the store
unchanged. -/
theorem setStore_lookup_self :
    ∀ (s : List (Nat × FNode)) (id : Nat) (nd : FNode),
      List.lookup id s = some nd → setStore s id nd = s
  | [], _, _, _ => rfl
  | (i, x) :: rest, id, nd, hl => by
    by_cases hii : id = i
    · subst hii
      simp [List.lookup] at hl
      simp [setStore, hl]
    · have hne : (id == i) = false := by simp [hii]
      simp [List.lookup, hne] at hl
      simp [setStore, hne, setStore_lookup_self rest id nd hl]

/-- C7 amended: `decrease_key(h, current-key)` never throws (the strict
comparator rejects `cmp(k, k)`), and it is a no-op — the heap is returned
unchanged — whenever the node is a root, or the augmented comparator
orders its parent strictly before it (the parent carries the removed flag,
or the parent's key is strictly smaller than the node's). When the
parent's key is merely *equal*, heap order still holds but the code cuts
the node (see the counterexample), so equality is excluded here. The
minimum-cache hypotheses say the cached minimum exists and is not ordered
after the node's key, as is the case in every reachable nonempty state. -/
theorem fib_decrease_key_same_key_noop
    (h : Fib) (id : Nat) (nd : FNode) (m : Nat) (mnd : FNode)
    (hget : getN h id = some nd) (hrem : nd.removed = false)
    (hmin : h.minimum = some m) (hmget : getN h m = some mnd)
    (hnl : intLt nd.key mnd.key = false)
    (hcase : isRootNd h nd = true ∨
      ∃ p pnd, nd.parent = some p ∧ getN h p = some pnd ∧
        (pnd.removed || intLt pnd.key nd.key) = true) :
    decrease_keyF intLt h id nd.key = FRes.ok h := by
  obtain ⟨kk, pp, cc, mm, rr⟩ := nd
  subst hrem
  have hirr : intLt kk kk = false := by simp [intLt]
  have hset : setN h id ⟨kk, pp, cc, mm, false⟩ = h := by
    simp [setN, setStore_lookup_self h.store id _ hget]
  have hcmp : cmpP intLt h (some id) h.minimum = some false := by
    simp [cmpP, hget, hmin, hmget, hnl]
  rcases hcase with hroot | ⟨p, pnd, hp, hpget, hpcmp⟩
  · simp [decrease_keyF, hget, hirr, hset, hcmp, hroot]
  · simp only at hp
    subst hp
    have hnotroot : isRootNd h ⟨kk, some p, cc, mm, false⟩ = false := by
      simp [isRootNd, aliveF, hpget]
    have hcmp2 : cmpP intLt h (some p) (some id) = some true := by
      rcases Bool.or_eq_true_iff.mp hpcmp with hr | hk
      · simp [cmpP, hpget, hr]
      · cases hpr : pnd.removed with
        | true => simp [cmpP, hpget, hpr]
        | false => simp [cmpP, hpget, hpr, hget, hk]
    simp [decrease_keyF, hget, hirr, hset, hcmp, hnotroot, hcmp2]

/-- Witness for `fib_decrease_key_same_key_noop`: on the two-root heap
`(04) (07)`, decreasing the root of key 7 to 7 returns the heap
unchanged. -/
theorem fib_decrease_key_same_key_noop_witness :
    decrease_keyF intLt (fibCtor [4, 7]) 1 7 = FRes.ok (fibCtor [4, 7]) :=
  fib_decrease_key_same_key_noop (fibCtor [4, 7]) 1
    ⟨7, none, [], false, false⟩ 0 ⟨4, none, [], false, false⟩
    (by decide) rfl (by decide) (by decide) (by decide) (Or.inl (by decide))

/-- On an array that already satisfies the heap shape, one sift-down pass
finds no violating child and moves nothing. -/
theorem siftDownB_of_isHeap {α : Type} (lt : α → α → Bool) (fuel : Nat)
    (a : List (BNode α)) (i : Nat) (hH : isHeapB lt a = true) :
    siftDownB lt (fuel + 1) a i = a := by
  cases hgi : a.get? i with
  | none =>
    rw [List.get?_eq_getElem?] at hgi
    simp [siftDownB, hgi]
  | some ai =>
    have hi : i < a.length := by
      obtain ⟨hlt, -⟩ := List.get?_eq_some.mp hgi
      exact hlt
    have hc := List.all_eq_true.mp hH i (List.mem_range.mpr hi)
    rw [Bool.and_eq_true] at hc
    obtain ⟨hc1, hc2⟩ := hc
    rw [hgi] at hc1 hc2
    have hL : largestIdxB lt a i ai = i := by
      unfold largestIdxB
      cases hgl : a.get? (2 * i + 1) with
      | none =>
        cases hgr : a.get? (2 * i + 2) with
        | none => rfl
        | some ar =>
          rw [hgr] at hc2
          simp only [Bool.not_eq_true'] at hc2
          simp [hc2]
      | some al =>
        rw [hgl] at hc1
        simp only [Bool.not_eq_true'] at hc1
        cases hgr : a.get? (2 * i + 2) with
        | none => simp [hc1]
        | some ar =>
          rw [hgr] at hc2
          simp only [Bool.not_eq_true'] at hc2
          simp [hc1, hc2]
    rw [List.get?_eq_getElem?] at hgi
    simp [siftDownB, hgi, hL]

theorem foldl_siftDownB_of_isHeap {α : Type} (lt : α → α → Bool)
    (a : List (BNode α)) (hH : isHeapB lt a = true) :
    ∀ l : List Nat,
      l.foldl (fun acc i => siftDownB lt (acc.length + 1) acc i) a = a
  | [] => rfl
  | x :: xs => by
    rw [List.foldl_cons, siftDownB_of_isHeap lt a.length a x hH]
    exact foldl_siftDownB_of_isHeap lt a hH xs

/-- C++ `std::make_heap` over an array that is already a valid heap is the
identity. -/
theorem makeHeapB_of_isHeap {α : Type} (lt : α → α → Bool)
    (a : List (BNode α)) (hH : isHeapB lt a = true) : makeHeapB lt a = a :=
  foldl_siftDownB_of_isHeap lt a hH _

/-- C9 amended: merging an empty heap is a no-op for the binary heap
(both overloads reduce to appending nothing and re-running
`std::make_heap`, the identity on the valid heap shapes every reachable
state has), but for the Fibonacci heap both overloads dereference the
empty argument's null `get_minimum()` inside `cmp` — undefined behaviour,
not a no-op. -/
theorem merge_empty_noop_or_crash :
    (∀ (α : Type) (lt : α → α → Bool) (b : BinHeap α),
      isHeapB lt b.heap = true → mergeB lt b (binEmpty α) = b) ∧
    (∀ h : Fib, mergeF intLt h (fibCtor []) = none) := by
  constructor
  · intro α lt b hH
    simp [mergeB, binEmpty, makeHeapB_of_isHeap lt b.heap hH]
  · intro h
    rfl

/-- Witness for `merge_empty_noop_or_crash`: the three-element binary heap
built from `{3, 5, 8}` absorbs the empty heap unchanged; the singleton
Fibonacci heap `(02)` crashes. -/
theorem merge_empty_noop_or_crash_witness :
    mergeB intLt (binCtor intLt [3, 5, 8]) (binEmpty Int) =
      binCtor intLt [3, 5, 8] ∧
    mergeF intLt (fibCtor [2]) (fibCtor []) = none :=
  ⟨merge_empty_noop_or_crash.1 Int intLt (binCtor intLt [3, 5, 8])
      (by decide),
   merge_empty_noop_or_crash.2 (fibCtor [2])⟩

/-! ### Queue-membership lemmas for the Dijkstra invariant -/

theorem mem_swapL {β : Type} {a : List β} {i j : Nat} {x : β}
    (hx : x ∈ swapL a i j) : x ∈ a := by
  unfold swapL at hx
  split at hx
  case h_1 y z hgi hgj =>
    rcases List.mem_or_eq_of_mem_set hx with hx1 | hx1
    · rcases List.mem_or_eq_of_mem_set hx1 with hx2 | hx2
      · exact hx2
      · exact hx2 ▸ List.get?_mem hgj
    · exact hx1 ▸ List.get?_mem hgi
  case h_2 => exact hx

theorem mem_siftUpB {α : Type} (lt : α → α → Bool) :
    ∀ (fuel : Nat) (a : List (BNode α)) (hole : Nat) (x : BNode α),
      x ∈ siftUpB lt fuel a hole → x ∈ a
  | 0, _, _, _, hx => hx
  | fuel + 1, a, hole, x, hx => by
    unfold siftUpB at hx
    split at hx
    · exact hx
    · split at hx
      case h_1 pv hv hgp hgh =>
        split at hx
        · exact mem_swapL (mem_siftUpB lt fuel _ _ x hx)
        · exact hx
      case h_2 => exact hx

theorem mem_siftDownB {α : Type} (lt : α → α → Bool) :
    ∀ (fuel : Nat) (a : List (BNode α)) (i : Nat) (x : BNode α),
      x ∈ siftDownB lt fuel a i → x ∈ a
  | 0, _, _, _, hx => hx
  | fuel + 1, a, i, x, hx => by
    unfold siftDownB at hx
    split at hx
    · exact hx
    · split at hx
      · exact hx
      · exact mem_swapL (mem_siftDownB lt fuel _ _ x hx)

theorem mem_insertB {α : Type} (lt : α → α → Bool) (b : BinHeap α) (k : α)
    {x : BNode α} (hx : x ∈ (insertB lt b k).1.heap) :
    x ∈ b.heap ∨ x = ⟨b.nextId, k⟩ := by
  simp only [insertB] at hx
  have := mem_siftUpB lt _ _ _ x hx
  simpa using this

theorem mem_remove_minimumB {α : Type} (lt : α → α → Bool)
    {b q' : BinHeap α} {nd : BNode α}
    (hrm : remove_minimumB lt b = some (q', nd)) {x : BNode α}
    (hx : x ∈ q'.heap) : x ∈ b.heap := by
  unfold remove_minimumB at hrm
  split at hrm
  · exact absurd hrm (by simp)
  case h_2 hd tl heq =>
    rw [Option.some.injEq, Prod.mk.injEq] at hrm
    obtain ⟨hq, -⟩ := hrm
    rw [← hq] at hx
    have hx1 := mem_siftDownB lt _ _ _ x hx
    have hx2 : x ∈ (hd :: tl).set 0 (tl.getLastD hd) :=
      (List.dropLast_sublist _).mem hx1
    rw [heq]
    rcases List.mem_or_eq_of_mem_set hx2 with hx3 | hx3
    · exact hx3
    · exact hx3 ▸ List.getLastD_mem_cons tl hd

theorem find_minimumB_mem {α : Type} {b : BinHeap α} {e : α}
    (hf : find_minimumB b = some e) : ∃ nd, nd ∈ b.heap ∧ nd.key = e := by
  unfold find_minimumB get_minimumB at hf
  split at hf
  · simp at hf
  case h_2 hd tl heq =>
    simp only [Option.map_some', Option.some.injEq] at hf
    exact ⟨hd, by rw [heq]; exact List.mem_cons_self hd tl, hf⟩

/-! ### The Dijkstra loop invariant -/

theorem relaxAll_inv (g : GraphM) (s u : Nat) (hu : ReachG g s u) :
    ∀ (es : List (Nat × Nat)) (st st' : DState),
      (∀ vw ∈ es, vw ∈ (g.get? u).getD []) →
      relaxAll u es st = some st' → DInv g s st → DInv g s st'
  | [], st, st', _, hr, hInv => by
    rw [relaxAll, Option.some.injEq] at hr
    exact hr ▸ hInv
  | (v, w) :: es, st, st', hsub, hr, hInv => by
    unfold relaxAll at hr
    split at hr
    case h_1 dv du hgv hgu =>
      have hsub' : ∀ vw ∈ es, vw ∈ (g.get? u).getD [] :=
        fun vw hvw => hsub vw (List.mem_cons_of_mem _ hvw)
      split at hr
      · refine relaxAll_inv g s u hu es _ st' hsub' hr ⟨?_, ?_, ?_⟩
        · simpa using hInv.1
        · intro v' u' hpu'
          rw [List.get?_set] at hpu'
          split at hpu'
          case isTrue hveq =>
            exact hveq ▸ ReachG.step hu (hsub (v, w) (List.mem_cons_self _ _))
          case isFalse =>
            exact hInv.2.1 v' u' hpu'
        · intro bn hbn
          rcases mem_insertB edgeLt st.q _ hbn with hold | hnew
          · exact hInv.2.2 bn hold
          · rw [hnew]
            exact ReachG.step hu (hsub (v, w) (List.mem_cons_self _ _))
      · exact relaxAll_inv g s u hu es st st' hsub' hr hInv
    case h_2 => exact absurd hr (by simp)

theorem dLoop_inv (g : GraphM) (s t : Nat) :
    ∀ (fuel : Nat) (st st' : DState),
      dLoop g t fuel st = some st' → DInv g s st → DInv g s st'
  | 0, st, st', hr, _ => by rw [dLoop] at hr; exact absurd hr (by simp)
  | fuel + 1, st, st', hr, hInv => by
    unfold dLoop at hr
    split at hr
    · rw [Option.some.injEq] at hr
      exact hr ▸ hInv
    · split at hr
      case h_1 => exact absurd hr (by simp)
      case h_2 e hfind =>
        split at hr
        · rw [Option.some.injEq] at hr
          exact hr ▸ hInv
        · split at hr
          case h_1 => exact absurd hr (by simp)
          case h_2 q' popped hpop =>
            split at hr
            case h_1 => exact absurd hr (by simp)
            case h_2 es hges =>
              split at hr
              case h_1 => exact absurd hr (by simp)
              case h_2 st2 hrelax =>
                have hu : ReachG g s e.key := by
                  obtain ⟨nd, hnd, hkey⟩ := find_minimumB_mem hfind
                  have hre := hInv.2.2 nd hnd
                  rw [hkey] at hre
                  exact hre
                have hInv1 : DInv g s { st with q := q' } :=
                  ⟨hInv.1, hInv.2.1,
                   fun bn hbn => hInv.2.2 bn (mem_remove_minimumB edgeLt hpop hbn)⟩
                have hsub : ∀ vw ∈ es, vw ∈ (g.get? e.key).getD [] := by
                  rw [hges]
                  intro vw hvw
                  simpa using hvw
                exact dLoop_inv g s t fuel st2 st' hr
                  (relaxAll_inv g s e.key hu es _ st2 hsub hrelax hInv1)

theorem dInit_inv (g : GraphM) (s : Nat) :
    DInv g s
      ⟨(List.replicate g.length W.inf).set s (W.fin 0),
       List.replicate g.length none,
       (insertB edgeLt ⟨[], 0⟩ ⟨s, W.fin 0⟩).1⟩ := by
  refine ⟨by simp, ?_, ?_⟩
  · intro v u hp
    rw [List.get?_eq_getElem?, List.getElem?_replicate] at hp
    split at hp <;> simp at hp
  · intro bn hbn
    rcases mem_insertB edgeLt ⟨[], 0⟩ ⟨s, W.fin 0⟩ hbn with h | h
    · simp at h
    · rw [h]
      exact ReachG.refl

/-- C4 amended: whenever `dijkstra` completes (enough fuel for the while
loop) and the destination is not reachable from the source along the
adjacency structure, the returned path is the single-element sequence
`[s]` — the SOURCE, not the destination: the reconstruction walk stops at
once because `parent[t]` was never set, and the driver then unconditionally
appends `source`. -/
theorem dijkstra_unreachable_returns_source
    (fuel : Nat) (g : GraphM) (s t : Nat) (p : List Nat)
    (hrun : dijkstraF fuel g s t = some p) (hur : ¬ ReachG g s t) :
    p = [s] := by
  unfold dijkstraF at hrun
  split at hrun
  case isFalse => exact absurd hrun (by simp)
  case isTrue hrange =>
    split at hrun
    case h_1 => exact absurd hrun (by simp)
    case h_2 st hloop =>
      split at hrun
      case h_1 => exact absurd hrun (by simp)
      case h_2 path hrec =>
        have hInv := dLoop_inv g s t fuel _ st hloop (dInit_inv g s)
        have hlen : t < st.parent.length := hInv.1 ▸ hrange.2
        have hpt : st.parent.get? t = some none := by
          cases hg : st.parent.get? t with
          | none =>
            rw [List.get?_eq_getElem?, List.getElem?_eq_none_iff] at hg
            omega
          | some ov =>
            cases ov with
            | none => rfl
            | some u => exact absurd (hInv.2.1 t u hg) hur
        cases fuel with
        | zero => rw [dLoop] at hloop; exact absurd hloop (by simp)
        | succ f =>
          unfold reconLoop at hrec
          rw [hpt, Option.some.injEq] at hrec
          rw [Option.some.injEq] at hrun
          rw [← hrun, ← hrec]
          rfl

/-- In the directed test graph, vertex 5 has no outgoing edges, so only 5
itself is reachable from 5. -/
theorem reachG_gDir_from5 : ∀ v : Nat, ReachG gDir 5 v → v = 5 := by
  intro v h
  induction h with
  | refl => rfl
  | step hr hmem ih =>
    subst ih
    simp [gDir] at hmem

theorem not_reachG_gDir_5_0 : ¬ ReachG gDir 5 0 := by
  intro h
  exact absurd (reachG_gDir_from5 0 h) (by decide)

/-- Witness for `dijkstra_unreachable_returns_source`: the directed test
graph, source 5, destination 0. -/
theorem dijkstra_unreachable_returns_source_witness :
    ¬ ReachG gDir 5 0 ∧ ([5] : List Nat) = [5] :=
  ⟨not_reachG_gDir_5_0,
   dijkstra_unreachable_returns_source 100 gDir 5 0 [5] (by decide)
     not_reachG_gDir_5_0⟩

end Heaps
